import Mathlib

/-
  Verification development for a WebDAV server core.

  The definitions below are shallow embeddings of the source functions:
  lock bookkeeping and permission arbitration from Methods/Method.ts,
  the Accept-Encoding negotiation and body sending from Methods/Method.ts,
  the property setter from FileSystemAdapter/Properties.ts, and the lock
  persistence from the FileSystemAdapter Lock class.

  Resources are identified by their canonical URL path, modelled as the
  list of path segments below the server base URL.  The lock store is a
  function from such a path to the list of locks held on that resource,
  standing for the adapter storage behind resource.getLocks().
-/

set_option maxRecDepth 4096

/-! ## Lock data model (Methods/Method.ts) -/

inductive LockScope
  | exclusive
  | shared
deriving DecidableEq

inductive LockDepth
  | zero
  | infinity
deriving DecidableEq

/-- A lock timeout in milliseconds, or Infinity. -/
inductive LockTimeout
  | fin (ms : Nat)
  | inf
deriving DecidableEq

/-- A lock as seen by the method dispatcher: token, owning resource path,
principal username, creation time in milliseconds, timeout, scope, depth
and the provisional flag. -/
structure MethodLock where
  token : String
  path : List String
  principal : String
  date : Nat
  timeout : LockTimeout
  scope : LockScope
  depth : LockDepth
  provisional : Bool
deriving DecidableEq

/-- The adapter lock storage: locks held per resource path. -/
def LockStore := List String → List MethodLock

/-- The expiry test from removeAndDeleteTimedOutLocks:
lock.date.getTime() + lock.timeout <= new Date().getTime().
A timeout of Infinity never expires. -/
def MethodLock.timedOut (l : MethodLock) (now : Nat) : Bool :=
  match l.timeout with
  | LockTimeout.fin ms => decide (l.date + ms ≤ now)
  | LockTimeout.inf => false

/-- removeAndDeleteTimedOutLocks: walks the list, deleting expired locks
(best effort, errors ignored) and keeping the rest.  The first component
is the returned list of current locks, the second is the list of locks
whose deletion was attempted. -/
def removeAndDeleteTimedOutLocks (now : Nat) : List MethodLock → List MethodLock × List MethodLock
  | [] => ([], [])
  | l :: rest =>
    let (cur, del) := removeAndDeleteTimedOutLocks now rest
    if l.timedOut now then (cur, l :: del) else (l :: cur, del)

/-- getCurrentResourceLocks: read the locks of a resource and purge the
expired ones. -/
def getCurrentResourceLocks (store : LockStore) (now : Nat) (p : List String) : List MethodLock :=
  (removeAndDeleteTimedOutLocks now (store p)).1

/-- The locks whose deletion getCurrentResourceLocks attempts. -/
def purgedLockDeletes (store : LockStore) (now : Nat) (p : List String) : List MethodLock :=
  (removeAndDeleteTimedOutLocks now (store p)).2

/-- getCurrentResourceLocksByUser: the adapter call
resource.getLocksByUser(user) is modelled, per the adapter contract, as
the locks of the resource whose principal is the given user; the result
is then purged of expired locks exactly as in the source. -/
def getCurrentResourceLocksByUser (store : LockStore) (now : Nat) (user : String)
    (p : List String) : List MethodLock :=
  (removeAndDeleteTimedOutLocks now ((store p).filter (fun l => decide (l.principal = user)))).1

/-- getParentResource, on canonical paths: drop the last path segment;
the walk stops (returns undefined) when the parent would be the server
base URL, so a single-segment path has no parent. -/
def parentPath : List String → Option (List String)
  | [] => none
  | [_] => none
  | a :: b :: rest => some ((a :: b :: rest).dropLast)

/-- Worker for the parent chain walk; the fuel argument bounds the
recursion by the length of the path, which drops by one per parent. -/
def ancestorChainAux : Nat → List String → List (List String)
  | 0, _ => []
  | _ + 1, [] => []
  | _ + 1, [_] => []
  | fuel + 1, a :: b :: rest =>
    (a :: b :: rest).dropLast :: ancestorChainAux fuel ((a :: b :: rest).dropLast)

/-- The chain of parents visited by the while loop in getLocksGeneral:
immediate parent first, stopping before the server base URL. -/
def ancestorChain (p : List String) : List (List String) :=
  ancestorChainAux p.length p

/-- The four views getLocksGeneral exposes. -/
structure LockViews where
  all : List MethodLock
  resource : List MethodLock
  depthZero : List MethodLock
  depthInfinity : List MethodLock
deriving DecidableEq

/-- The body of the while loop of getLocksGeneral over the parent chain:
for each parent lock, a depth infinity lock is tagged depthInfinity, and
a depth 0 lock on the first level parent is tagged depthZero; both kinds
are also pushed onto all.  Returns (all additions, depthInfinity,
depthZero). -/
def parentContrib (get : List String → List MethodLock) :
    List (List String) → Bool → List MethodLock × List MethodLock × List MethodLock
  | [], _ => ([], [], [])
  | a :: rest, first =>
    let ls := get a
    let (alls, infs, zeros) := parentContrib get rest false
    (ls.filter (fun l => decide (l.depth = LockDepth.infinity) ||
        (first && decide (l.depth = LockDepth.zero))) ++ alls,
     ls.filter (fun l => decide (l.depth = LockDepth.infinity)) ++ infs,
     (if first then ls.filter (fun l => decide (l.depth = LockDepth.zero)) else []) ++ zeros)

/-- getLocksGeneral: the resource locks, plus the tagged contributions of
the parent chain. -/
def getLocksGeneral (get : List String → List MethodLock) (p : List String) : LockViews :=
  let resourceLocks := get p
  let (alls, infs, zeros) := parentContrib get (ancestorChain p) true
  { all := resourceLocks ++ alls
    resource := resourceLocks
    depthZero := zeros
    depthInfinity := infs }

/-- The per-resource lock reader used by getLocks: current (purged) locks
with provisional locks filtered out. -/
def activeResourceLocks (store : LockStore) (now : Nat) (q : List String) : List MethodLock :=
  (getCurrentResourceLocks store now q).filter (fun l => !l.provisional)

/-- The per-resource lock reader used by getLocksByUser. -/
def activeResourceLocksByUser (store : LockStore) (now : Nat) (user : String)
    (q : List String) : List MethodLock :=
  (getCurrentResourceLocksByUser store now user q).filter (fun l => !l.provisional)

/-- getLocks: the effective lock views of a resource. -/
def getLocks (store : LockStore) (now : Nat) (p : List String) : LockViews :=
  getLocksGeneral (activeResourceLocks store now) p

/-- getLocksByUser: the effective lock views restricted to locks of one
principal. -/
def getLocksByUser (store : LockStore) (now : Nat) (user : String) (p : List String) : LockViews :=
  getLocksGeneral (activeResourceLocksByUser store now user) p

/-! ## Request lock tokens (Methods/Method.ts) -/

/-- One HTTP request, as far as the embedded functions read it. -/
structure Request where
  method : String
  ifHeader : Option String
  lockTokenHeader : Option String
deriving DecidableEq

def isLowerHexDigit (c : Char) : Bool :=
  (decide ('0' ≤ c) && decide (c ≤ '9')) || (decide ('a' ≤ c) && decide (c ≤ 'f'))

/-- Match a literal character sequence at the head of the input. -/
def matchLit : List Char → List Char → Option (List Char)
  | [], rest => some rest
  | _ :: _, [] => none
  | l :: ls, c :: cs => if c = l then matchLit ls cs else none

/-- Match exactly n lowercase hex digits at the head of the input. -/
def matchHexN : Nat → List Char → Option (List Char × List Char)
  | 0, cs => some ([], cs)
  | _ + 1, [] => none
  | n + 1, c :: cs =>
    if isLowerHexDigit c then
      match matchHexN n cs with
      | some (ds, rest) => some (c :: ds, rest)
      | none => none
    else none

/-- Match the regular expression
<urn:uuid:[0-9a-f]{8}-[0-9a-f]{4}-[0-9a-f]{4}-[0-9a-f]{4}-[0-9a-f]{12}>
at the head of the input, returning the token without the angle
brackets, and the remaining input. -/
def matchUuidAt (cs : List Char) : Option (String × List Char) := do
  let r1 ← matchLit "<urn:uuid:".data cs
  let (h1, r2) ← matchHexN 8 r1
  let r3 ← matchLit ['-'] r2
  let (h2, r4) ← matchHexN 4 r3
  let r5 ← matchLit ['-'] r4
  let (h3, r6) ← matchHexN 4 r5
  let r7 ← matchLit ['-'] r6
  let (h4, r8) ← matchHexN 4 r7
  let r9 ← matchLit ['-'] r8
  let (h5, r10) ← matchHexN 12 r9
  let r11 ← matchLit ['>'] r10
  pure (String.mk ("urn:uuid:".data ++ h1 ++ ['-'] ++ h2 ++ ['-'] ++ h3 ++
    ['-'] ++ h4 ++ ['-'] ++ h5), r11)

/-- Global regular expression scan: find every non overlapping match,
scanning left to right.  The fuel argument bounds the recursion by the
length of the input. -/
def extractTokensAux : Nat → List Char → List String
  | 0, _ => []
  | _, [] => []
  | fuel + 1, c :: cs =>
    match matchUuidAt (c :: cs) with
    | some (tok, rest) => tok :: extractTokensAux fuel rest
    | none => extractTokensAux fuel cs

/-- All urn:uuid tokens appearing in a header value. -/
def extractTokens (s : String) : List String :=
  extractTokensAux s.data.length s.data

/-- getRequestLockTockens: the submitted lock tokens, extracted from the
If header only. -/
def getRequestLockTockens (req : Request) : List String :=
  extractTokens (req.ifHeader.getD "")

/-- Modelled from the spec: the spec sentence says a lock is owned by a
request iff its token appears in the request If header or Lock-Token
header.  The source has no function reading the Lock-Token header on
this path; this definition follows the spec wording for comparison. -/
def specSubmittedTokens (req : Request) : List String :=
  extractTokens (req.ifHeader.getD "") ++ extractTokens (req.lockTokenHeader.getD "")

/-! ## Lock permission (Methods/Method.ts getLockPermission) -/

/-- One of the three for loops in the LOCK branch of getLockPermission:
return earlyVal on the first exclusive lock, set the running code to 3 on
a shared lock and continue. -/
def scanLocks (earlyVal : Nat) : List MethodLock → Nat → Option Nat × Nat
  | [], code => (none, code)
  | l :: rest, code =>
    match l.scope with
    | LockScope.exclusive => (some earlyVal, code)
    | LockScope.shared => scanLocks earlyVal rest 3

/-- The LOCK branch of getLockPermission: scan resource, then
depthInfinity, then depthZero. -/
def lockMethodScan (locks : LockViews) : Nat :=
  match scanLocks 0 locks.resource 0 with
  | (some r, _) => r
  | (none, c1) =>
    match scanLocks 0 locks.depthInfinity c1 with
    | (some r, _) => r
    | (none, c2) =>
      match scanLocks 1 locks.depthZero c2 with
      | (some r, _) => r
      | (none, c3) => c3

/-- getLockPermission: the permission code in 0..3 for a request on a
resource by a user. -/
def getLockPermission (store : LockStore) (now : Nat) (req : Request) (p : List String)
    (user : String) : Nat :=
  let locks := getLocks store now p
  let lockTokens := getRequestLockTockens req
  if locks.all.isEmpty then 2
  else
    let userLocks := getLocksByUser store now user p
    if userLocks.all.any (fun l => lockTokens.contains l.token) then 2
    else if req.method = "LOCK" then
      lockMethodScan locks
    else if !locks.depthInfinity.isEmpty || !locks.resource.isEmpty then 0
    else if !locks.depthZero.isEmpty then 1
    else 0

/-- Insert a lock into the store at a given resource path. -/
def storeInsert (store : LockStore) (q : List String) (l : MethodLock) : LockStore :=
  fun r => if r = q then l :: store r else store r

/-! ## Accept-Encoding negotiation (Methods/Method.ts getRequestedEncoding) -/

/-- The whitespace characters trimmed by the header parsing. -/
def jsWhitespace (c : Char) : Bool :=
  decide (c = ' ') || decide (c = '\t') || decide (c = '\n') || decide (c = '\r') ||
  decide (c = '\x0b') || decide (c = '\x0c')

/-- Split a character list on a separator character; mirrors the
JavaScript String.prototype.split with a one character separator. -/
def splitOnChar (sep : Char) : List Char → List (List Char)
  | [] => [[]]
  | c :: cs =>
    let rest := splitOnChar sep cs
    if c = sep then [] :: rest
    else
      match rest with
      | r :: rs => (c :: r) :: rs
      | [] => [[c]]

/-- Trim whitespace from both ends. -/
def trimChars (cs : List Char) : List Char :=
  ((cs.dropWhile jsWhitespace).reverse.dropWhile jsWhitespace).reverse

/-- The value of a parsed q weight: an exact rational num/den, or one of
the non finite parseFloat outcomes. -/
structure QNum where
  num : Int
  den : Int
deriving DecidableEq

inductive QVal
  | nan
  | posInf
  | negInf
  | val (q : QNum)
deriving DecidableEq

def isDigitChar (c : Char) : Bool := decide ('0' ≤ c) && decide (c ≤ '9')

def digitsToNat (ds : List Char) : Nat :=
  ds.foldl (fun acc c => 10 * acc + (c.toNat - '0'.toNat)) 0

/-- The optional exponent part accepted by parseFloat after an e or E:
an optional sign and digits; with no digits the exponent is ignored. -/
def parseExpPart (cs : List Char) : Int :=
  let (s, cs2) : Int × List Char :=
    match cs with
    | '-' :: rest => (-1, rest)
    | '+' :: rest => (1, rest)
    | _ => (1, cs)
  let ds := cs2.takeWhile isDigitChar
  if ds = [] then 0 else s * (digitsToNat ds : Int)

/-- parseFloat on the q weight string: leading whitespace skipped,
optional sign, Infinity literal, digits with optional fraction and
optional exponent, trailing input ignored; anything else is NaN.  The
numeric value is kept as an exact rational. -/
def parseFloatQ (cs0 : List Char) : QVal :=
  let cs1 := cs0.dropWhile jsWhitespace
  let (sign, cs2) : Int × List Char :=
    match cs1 with
    | '-' :: rest => (-1, rest)
    | '+' :: rest => (1, rest)
    | _ => (1, cs1)
  if cs2.take 8 = "Infinity".data then
    if sign = 1 then QVal.posInf else QVal.negInf
  else
    let intPart := cs2.takeWhile isDigitChar
    let cs3 := cs2.dropWhile isDigitChar
    let (fracPart, cs4) : List Char × List Char :=
      match cs3 with
      | '.' :: rest => (rest.takeWhile isDigitChar, rest.dropWhile isDigitChar)
      | _ => ([], cs3)
    if intPart = [] ∧ fracPart = [] then QVal.nan
    else
      let num0 : Int := (digitsToNat intPart : Int) * (10 : Int) ^ fracPart.length +
        (digitsToNat fracPart : Int)
      let den0 : Int := (10 : Int) ^ fracPart.length
      let e : Int :=
        match cs4 with
        | 'e' :: rest => parseExpPart rest
        | 'E' :: rest => parseExpPart rest
        | _ => 0
      if 0 ≤ e then
        QVal.val { num := sign * num0 * (10 : Int) ^ e.toNat, den := den0 }
      else
        QVal.val { num := sign * num0, den := den0 * (10 : Int) ^ (-e).toNat }

/-- One comma separated entry of the Accept-Encoding header: trimmed,
split on semicolons; the first part is the name, the second, with a q=
marker stripped and an empty value defaulted, is parsed as the weight. -/
def parseEntry (piece : List Char) : String × QVal :=
  let parts := splitOnChar ';' (trimChars piece)
  let name := parts.headD []
  let qv : QVal :=
    match parts[1]? with
    | none => parseFloatQ "1.0".data
    | some t =>
      let t2 := if t.take 2 = "q=".data then t.drop 2 else t
      if t2 = [] then parseFloatQ "1.0".data else parseFloatQ t2
  (String.mk name, qv)

def parseAcceptEncoding (h : String) : List (String × QVal) :=
  (splitOnChar ',' h.data).map parseEntry

/-- Strict comparison of q weights; comparisons involving NaN are never
strict, so NaN entries tie with everything, as in the sort comparator. -/
def qGT : QVal → QVal → Bool
  | QVal.nan, _ => false
  | _, QVal.nan => false
  | QVal.posInf, QVal.posInf => false
  | QVal.posInf, _ => true
  | QVal.val _, QVal.posInf => false
  | QVal.val a, QVal.val b => decide (b.num * a.den < a.num * b.den)
  | QVal.val _, QVal.negInf => true
  | QVal.negInf, _ => false

/-- Stable insertion for the descending sort by q weight. -/
def insertDescQ (x : String × QVal) : List (String × QVal) → List (String × QVal)
  | [] => [x]
  | y :: ys => if qGT y.2 x.2 then y :: insertDescQ x ys else x :: y :: ys

/-- The stable descending sort encodings.sort((a, b) => b[1] - a[1]). -/
def sortDescQ : List (String × QVal) → List (String × QVal)
  | [] => []
  | x :: xs => insertDescQ x (sortDescQ xs)

def supportedEncodings : List String := ["gzip", "deflate", "br", "identity"]

/-- The set accepted by the selection loop: [...supported, x-gzip, *]. -/
def acceptableEncodings : List String := ["gzip", "deflate", "br", "identity", "x-gzip", "*"]

/-- The while loop of getRequestedEncoding: splice entries off the sorted
list until one is acceptable; none left means the encoding error. -/
def pickEncoding : List (String × QVal) → Option (String × List (String × QVal))
  | [] => none
  | (name, _) :: rest =>
    if name ∈ acceptableEncodings then some (name, rest) else pickEncoding rest

inductive EncError
  | encodingNotSupported
deriving DecidableEq

/-- The names listed in an Accept-Encoding header value. -/
def entryNames (l : List (String × QVal)) : List String := l.map Prod.fst

/-- Modelled from the spec wording for the star branch: the first
supported encoding not explicitly listed in the header, falling back to
gzip. -/
def firstUnlistedSupported (names : List String) : String :=
  (supportedEncodings.find? (fun c => !names.contains c)).getD "gzip"

/-- getRequestedEncoding: the header is read with
request.get(...) || default, and the JavaScript or applies the default
to every falsy value, so a missing header and a present but empty
header both become the string identity, *;q=0.5; entries are sorted by
descending q value; the first acceptable entry wins; a star picks the
first supported encoding not found among the remaining entries, falling
back to gzip. -/
def getRequestedEncoding (header : Option String) : Except EncError String :=
  let acceptEncoding :=
    match header with
    | none => "identity, *;q=0.5"
    | some s => if s = "" then "identity, *;q=0.5" else s
  let encodings := sortDescQ (parseAcceptEncoding acceptEncoding)
  match pickEncoding encodings with
  | none => Except.error EncError.encodingNotSupported
  | some (enc, rest) =>
    if enc = "*" then
      Except.ok ((supportedEncodings.find?
        (fun c => (rest.find? (fun e => decide (e.1 = c))).isNone)).getD "gzip")
    else
      Except.ok enc

/-! ## Body sending (Methods/Method.ts sendBodyContent) -/

/-- The body bytes handed to response.send: raw UTF-8 content, or the
output of one of the zlib compressors, which are external collaborators
modelled by the compress parameter. -/
inductive BodyOut
  | raw (content : String)
  | encoded (encoding : String) (content : String)
deriving DecidableEq

/-- The response state sendBodyContent produces. -/
structure SendResult where
  varySet : Bool
  contentEncoding : Option String
  contentLength : Nat
  body : BodyOut
deriving DecidableEq

/-- The regular expression (?:^|,)\s*?no-transform\s*?(?:,|$) on the
response Cache-Control header: some comma separated element is exactly
no-transform up to surrounding whitespace. -/
def noTransformIn (s : String) : Bool :=
  (splitOnChar ',' s.data).any (fun piece => trimChars piece = "no-transform".data)

/-- sendBodyContent: always adds Vary: Accept-Encoding; sends the body
uncompressed when compression is disabled, the chosen encoding is
identity, or the response Cache-Control contains no-transform; otherwise
compresses and sets Content-Encoding.  byteLen models the byte length of
the compressor output for the non identity branch. -/
def sendBodyContent (byteLen : String → String → Nat) (compression : Bool)
    (cacheControlHeader : Option String) (content : String) (encoding : String) : SendResult :=
  let noTransform :=
    match cacheControlHeader with
    | some s => noTransformIn s
    | none => false
  if !compression || decide (encoding = "identity") || noTransform then
    { varySet := true
      contentEncoding := none
      contentLength := content.utf8ByteSize
      body := BodyOut.raw content }
  else
    { varySet := true
      contentEncoding := some encoding
      contentLength := byteLen encoding content
      body := BodyOut.encoded encoding content }

/-! ## Properties.set (FileSystemAdapter/Properties.ts) -/

/-- The live property names protected by Properties.set. -/
def liveProperties : List String :=
  ["creationdate", "getcontentlength", "getcontenttype", "getetag",
   "getlastmodified", "lockdiscovery", "resourcetype", "supportedlock"]

/-- Set a key in a JavaScript object, modelled as an association list:
replace in place if present, append otherwise. -/
def assocSet {α : Type} : List (String × α) → String → α → List (String × α)
  | [], k, v => [(k, v)]
  | (k2, v2) :: rest, k, v =>
    if k2 = k then (k, v) :: rest else (k2, v2) :: assocSet rest k v

/-- Delete a key from a JavaScript object. -/
def assocRemove {α : Type} : List (String × α) → String → List (String × α)
  | [], _ => []
  | (k2, v2) :: rest, k => if k2 = k then rest else (k2, v2) :: assocRemove rest k

/-- Look up a key in a JavaScript object. -/
def assocGet {α : Type} : List (String × α) → String → Option α
  | [], _ => none
  | (k2, v2) :: rest, k => if k2 = k then some v2 else assocGet rest k

def assocHas {α : Type} (m : List (String × α)) (k : String) : Bool :=
  m.any (fun e => decide (e.1 = k))

/-- The dead property file of a resource: the entries under the root
key, if that key is present. -/
structure PropsFile where
  star : Option (List (String × String))
deriving DecidableEq

inductive FsOp
  | read
  | write
deriving DecidableEq

inductive PropError
  | propertyIsProtected
deriving DecidableEq

/-- Properties.set: a live property name throws PropertyIsProtectedError
before any file access; otherwise the prop file is read (a missing file
counts as empty), the value is set, or removed when the value is
undefined, and the file is written back only when something changed.
The state of the file is threaded explicitly (none means no file), and
the list records the file operations performed. -/
def propertiesSet (st : Option PropsFile) (name : String) (value : Option String) :
    Except PropError Unit × Option PropsFile × List FsOp :=
  if name ∈ liveProperties then
    (Except.error PropError.propertyIsProtected, st, [])
  else
    let props : Option (List (String × String)) :=
      match st with
      | none => none
      | some doc => doc.star
    match value with
    | none =>
      match props with
      | some m =>
        if assocHas m name then
          (Except.ok (), some { star := some (assocRemove m name) }, [FsOp.read, FsOp.write])
        else
          (Except.ok (), st, [FsOp.read])
      | none => (Except.ok (), st, [FsOp.read])
    | some v =>
      let m := props.getD []
      (Except.ok (), some { star := some (assocSet m name v) }, [FsOp.read, FsOp.write])

/-! ## Lock.save (FileSystemAdapter Lock class) -/

/-- The record stored per lock in the metadata document. -/
structure FsLockRecord where
  username : String
  date : Nat
  timeout : Nat
  exclusive : Bool
  depth : LockDepth
  provisional : Bool
deriving DecidableEq

/-- The metadata document of a resource: locks keyed by token, plus the
dead properties stored under the root key. -/
structure MetaFile where
  locks : Option (List (String × FsLockRecord))
  dead : List (String × String)
deriving DecidableEq

structure FsUser where
  username : String
deriving DecidableEq

/-- A FileSystemAdapter lock object. -/
structure FsLock where
  token : String
  user : FsUser
  date : Nat
  timeout : Nat
  exclusive : Bool
  depth : LockDepth
  provisional : Bool
deriving DecidableEq

/-- Lock.save: read the metadata document, default the locks key to an
empty object, store the lock record under the lock token, and save the
document back. -/
def lockSave (lk : FsLock) (meta : MetaFile) : MetaFile :=
  let locks := meta.locks.getD []
  { meta with
    locks := some (assocSet locks lk.token
      { username := lk.user.username
        date := lk.date
        timeout := lk.timeout
        exclusive := lk.exclusive
        depth := lk.depth
        provisional := lk.provisional }) }

/-! ## Lemmas about the purge of expired locks -/

theorem removeAndDelete_cons (now : Nat) (x : MethodLock) (rest : List MethodLock) :
    removeAndDeleteTimedOutLocks now (x :: rest) =
      if x.timedOut now then
        ((removeAndDeleteTimedOutLocks now rest).1, x :: (removeAndDeleteTimedOutLocks now rest).2)
      else
        (x :: (removeAndDeleteTimedOutLocks now rest).1, (removeAndDeleteTimedOutLocks now rest).2) := by
  rcases h : removeAndDeleteTimedOutLocks now rest with ⟨c, d⟩
  by_cases hx : x.timedOut now <;> simp [removeAndDeleteTimedOutLocks, h, hx]

theorem mem_removeAndDelete_fst {now : Nat} {ls : List MethodLock} {l : MethodLock} :
    l ∈ (removeAndDeleteTimedOutLocks now ls).1 ↔ l ∈ ls ∧ l.timedOut now = false := by
  induction ls with
  | nil => simp [removeAndDeleteTimedOutLocks]
  | cons x rest ih =>
    rw [removeAndDelete_cons]
    by_cases hx : x.timedOut now = true
    · rw [if_pos hx]
      simp only [ih, List.mem_cons]
      constructor
      · rintro ⟨hm, ht⟩; exact ⟨Or.inr hm, ht⟩
      · rintro ⟨hm | hm, ht⟩
        · subst hm; rw [hx] at ht; cases ht
        · exact ⟨hm, ht⟩
    · rw [if_neg hx]
      have hx2 : x.timedOut now = false := by revert hx; cases x.timedOut now <;> simp
      simp only [List.mem_cons, ih]
      constructor
      · rintro (hm | ⟨hm, ht⟩)
        · subst hm; exact ⟨Or.inl rfl, hx2⟩
        · exact ⟨Or.inr hm, ht⟩
      · rintro ⟨hm | hm, ht⟩
        · exact Or.inl hm
        · exact Or.inr ⟨hm, ht⟩

theorem mem_removeAndDelete_snd {now : Nat} {ls : List MethodLock} {l : MethodLock} :
    l ∈ (removeAndDeleteTimedOutLocks now ls).2 ↔ l ∈ ls ∧ l.timedOut now = true := by
  induction ls with
  | nil => simp [removeAndDeleteTimedOutLocks]
  | cons x rest ih =>
    rw [removeAndDelete_cons]
    by_cases hx : x.timedOut now = true
    · rw [if_pos hx]
      simp only [List.mem_cons, ih]
      constructor
      · rintro (hm | ⟨hm, ht⟩)
        · subst hm; exact ⟨Or.inl rfl, hx⟩
        · exact ⟨Or.inr hm, ht⟩
      · rintro ⟨hm | hm, ht⟩
        · exact Or.inl hm
        · exact Or.inr ⟨hm, ht⟩
    · rw [if_neg hx]
      simp only [ih, List.mem_cons]
      constructor
      · rintro ⟨hm, ht⟩; exact ⟨Or.inr hm, ht⟩
      · rintro ⟨hm | hm, ht⟩
        · subst hm; exact absurd ht hx
        · exact ⟨hm, ht⟩

theorem mem_activeResourceLocks {store : LockStore} {now : Nat} {q : List String}
    {l : MethodLock} :
    l ∈ activeResourceLocks store now q ↔
      l ∈ store q ∧ l.timedOut now = false ∧ l.provisional = false := by
  simp only [activeResourceLocks, getCurrentResourceLocks, List.mem_filter,
    mem_removeAndDelete_fst, Bool.not_eq_true']
  tauto

theorem mem_activeResourceLocksByUser {store : LockStore} {now : Nat} {user : String}
    {q : List String} {l : MethodLock} :
    l ∈ activeResourceLocksByUser store now user q ↔
      l ∈ store q ∧ l.principal = user ∧ l.timedOut now = false ∧ l.provisional = false := by
  simp only [activeResourceLocksByUser, getCurrentResourceLocksByUser, List.mem_filter,
    mem_removeAndDelete_fst, Bool.not_eq_true', decide_eq_true_eq]
  tauto

/-! ## Lemmas about the lock views -/

theorem parentContrib_nil (get : List String → List MethodLock) (first : Bool) :
    parentContrib get [] first = ([], [], []) := rfl

theorem parentContrib_cons (get : List String → List MethodLock) (a : List String)
    (rest : List (List String)) (first : Bool) :
    parentContrib get (a :: rest) first =
      ((get a).filter (fun l => decide (l.depth = LockDepth.infinity) ||
          (first && decide (l.depth = LockDepth.zero))) ++ (parentContrib get rest false).1,
       (get a).filter (fun l => decide (l.depth = LockDepth.infinity)) ++
          (parentContrib get rest false).2.1,
       (if first then (get a).filter (fun l => decide (l.depth = LockDepth.zero)) else []) ++
          (parentContrib get rest false).2.2) := by
  rcases h : parentContrib get rest false with ⟨alls, infs, zeros⟩
  simp [parentContrib, h]

theorem mem_parentContrib_inf {get : List String → List MethodLock}
    {as : List (List String)} {first : Bool} {l : MethodLock} :
    l ∈ (parentContrib get as first).2.1 ↔
      ∃ a ∈ as, l ∈ get a ∧ l.depth = LockDepth.infinity := by
  induction as generalizing first with
  | nil => simp [parentContrib_nil]
  | cons a rest ih =>
    rw [parentContrib_cons]
    simp only [List.mem_append, List.mem_filter, decide_eq_true_eq, ih, List.mem_cons]
    constructor
    · rintro (⟨hm, hd⟩ | ⟨b, hb, hm, hd⟩)
      · exact ⟨a, Or.inl rfl, hm, hd⟩
      · exact ⟨b, Or.inr hb, hm, hd⟩
    · rintro ⟨b, hb | hb, hm, hd⟩
      · subst hb; exact Or.inl ⟨hm, hd⟩
      · exact Or.inr ⟨b, hb, hm, hd⟩

theorem parentContrib_zeros_false {get : List String → List MethodLock}
    {as : List (List String)} :
    (parentContrib get as false).2.2 = [] := by
  induction as with
  | nil => rfl
  | cons a rest ih => rw [parentContrib_cons]; simp [ih]

theorem mem_parentContrib_zeros {get : List String → List MethodLock}
    {as : List (List String)} {l : MethodLock} :
    l ∈ (parentContrib get as true).2.2 ↔
      ∃ a rest, as = a :: rest ∧ l ∈ get a ∧ l.depth = LockDepth.zero := by
  cases as with
  | nil => simp [parentContrib_nil]
  | cons a rest =>
    rw [parentContrib_cons]
    simp only [if_true, parentContrib_zeros_false, List.append_nil, List.mem_filter,
      decide_eq_true_eq]
    constructor
    · rintro ⟨hm, hd⟩; exact ⟨a, rest, rfl, hm, hd⟩
    · rintro ⟨b, rest2, heq, hm, hd⟩
      cases heq; exact ⟨hm, hd⟩

theorem mem_parentContrib_all {get : List String → List MethodLock}
    {as : List (List String)} {first : Bool} {l : MethodLock} :
    l ∈ (parentContrib get as first).1 ↔
      l ∈ (parentContrib get as first).2.1 ∨
      (first = true ∧ l ∈ (parentContrib get as true).2.2) := by
  induction as generalizing first with
  | nil => simp [parentContrib_nil]
  | cons a rest ih =>
    rw [parentContrib_cons, parentContrib_cons]
    cases first with
    | true =>
      simp only [parentContrib_cons, List.mem_append, List.mem_filter, Bool.true_and,
        Bool.or_eq_true, decide_eq_true_eq, ih, parentContrib_zeros_false, List.append_nil,
        if_true, true_and, List.not_mem_nil, or_false, and_false, false_and]
      tauto
    | false =>
      simp only [parentContrib_cons, List.mem_append, List.mem_filter, Bool.false_and,
        Bool.or_false, decide_eq_true_eq, ih, false_and, or_false, and_false]
      tauto

theorem getLocksGeneral_eq (get : List String → List MethodLock) (p : List String) :
    getLocksGeneral get p =
      { all := get p ++ (parentContrib get (ancestorChain p) true).1
        resource := get p
        depthZero := (parentContrib get (ancestorChain p) true).2.2
        depthInfinity := (parentContrib get (ancestorChain p) true).2.1 } := by
  rcases h : parentContrib get (ancestorChain p) true with ⟨alls, infs, zeros⟩
  simp [getLocksGeneral, h]

theorem mem_getLocksGeneral_all {get : List String → List MethodLock} {p : List String}
    {l : MethodLock} :
    l ∈ (getLocksGeneral get p).all ↔
      l ∈ (getLocksGeneral get p).resource ∨ l ∈ (getLocksGeneral get p).depthZero ∨
        l ∈ (getLocksGeneral get p).depthInfinity := by
  rw [getLocksGeneral_eq]
  simp only [List.mem_append, mem_parentContrib_all]
  tauto

/-! ## Lemmas about the parent chain -/

theorem ancestorChainAux_eq_of_le {fuel : Nat} {p : List String} (h : p.length ≤ fuel) :
    ancestorChainAux fuel p = ancestorChainAux p.length p := by
  induction fuel generalizing p with
  | zero =>
    match p with
    | [] => rfl
    | a :: rest => simp at h
  | succ f ih =>
    match p with
    | [] => rfl
    | [a] => rfl
    | a :: b :: rest =>
      have hlen : ((a :: b :: rest).dropLast).length = rest.length + 1 := by
        simp [List.length_dropLast]
      simp only [List.length_cons, ancestorChainAux]
      rw [ih (by simp only [List.length_cons] at h; omega)]
      rw [hlen]

theorem ancestorChain_cons (a b : String) (rest : List String) :
    ancestorChain (a :: b :: rest) =
      (a :: b :: rest).dropLast :: ancestorChain ((a :: b :: rest).dropLast) := by
  have hlen : ((a :: b :: rest).dropLast).length = rest.length + 1 := by
    simp [List.length_dropLast]
  show ancestorChainAux (rest.length + 1 + 1) (a :: b :: rest) = _
  rw [show ancestorChainAux (rest.length + 1 + 1) (a :: b :: rest) =
    (a :: b :: rest).dropLast ::
      ancestorChainAux (rest.length + 1) ((a :: b :: rest).dropLast) from rfl]
  unfold ancestorChain
  rw [ancestorChainAux_eq_of_le (by rw [hlen])]

theorem ancestorChain_nil : ancestorChain [] = [] := rfl

theorem ancestorChain_single (a : String) : ancestorChain [a] = [] := rfl

theorem ancestorChain_of_parent_none {p : List String} (h : parentPath p = none) :
    ancestorChain p = [] := by
  match p with
  | [] => exact ancestorChain_nil
  | [a] => exact ancestorChain_single a
  | a :: b :: rest => simp [parentPath] at h

theorem ancestorChain_of_parent_some {p q : List String} (h : parentPath p = some q) :
    ancestorChain p = q :: ancestorChain q := by
  match p with
  | [] => simp [parentPath] at h
  | [a] => simp [parentPath] at h
  | a :: b :: rest =>
    simp only [parentPath, Option.some.injEq] at h
    rw [ancestorChain_cons, h]

theorem mem_ancestorChainAux_length {fuel : Nat} :
    ∀ {p q : List String}, q ∈ ancestorChainAux fuel p → q.length < p.length := by
  induction fuel with
  | zero => intro p q h; cases h
  | succ f ih =>
    intro p q h
    match p with
    | [] => cases h
    | [a] => cases h
    | a :: b :: rest =>
      rw [show ancestorChainAux (f + 1) (a :: b :: rest) =
        (a :: b :: rest).dropLast ::
          ancestorChainAux f ((a :: b :: rest).dropLast) from rfl] at h
      rcases List.mem_cons.mp h with hq | hq
      · subst hq
        simp only [List.length_dropLast, List.length_cons]
        omega
      · have h1 := ih hq
        simp only [List.length_dropLast, List.length_cons] at h1 ⊢
        omega

theorem length_lt_of_mem_ancestorChain {p q : List String} (h : q ∈ ancestorChain p) :
    q.length < p.length :=
  mem_ancestorChainAux_length h

/-! ## Lemmas about the LOCK branch scans -/

theorem scanLocks_of_exclusive (v : Nat) {ls : List MethodLock} (code : Nat)
    (h : ∃ l ∈ ls, l.scope = LockScope.exclusive) :
    (scanLocks v ls code).1 = some v := by
  induction ls generalizing code with
  | nil => simp at h
  | cons x rest ih =>
    rcases h with ⟨l, hl, hex⟩
    rcases List.mem_cons.mp hl with hq | hq
    · subst hq
      simp [scanLocks, hex]
    · cases hx : x.scope with
      | exclusive => simp [scanLocks, hx]
      | shared => simpa [scanLocks, hx] using ih 3 ⟨l, hq, hex⟩

theorem scanLocks_all_shared {v : Nat} {ls : List MethodLock} {code : Nat}
    (h : ∀ l ∈ ls, l.scope = LockScope.shared) :
    scanLocks v ls code = (none, if ls.isEmpty then code else 3) := by
  induction ls generalizing code with
  | nil => simp [scanLocks]
  | cons x rest ih =>
    have hx : x.scope = LockScope.shared := h x (List.mem_cons_self x rest)
    have hrest : ∀ l ∈ rest, l.scope = LockScope.shared :=
      fun l hl => h l (List.mem_cons_of_mem x hl)
    simp only [scanLocks, hx, List.isEmpty_cons, ih hrest]
    cases rest <;> simp

theorem scanLocks_fst_cases (v : Nat) (ls : List MethodLock) (code : Nat) :
    (scanLocks v ls code).1 = none ∨ (scanLocks v ls code).1 = some v := by
  induction ls generalizing code with
  | nil => simp [scanLocks]
  | cons x rest ih =>
    cases hx : x.scope with
    | exclusive => simp [scanLocks, hx]
    | shared => simpa [scanLocks, hx] using ih 3

theorem scanLocks_snd_cases (v : Nat) (ls : List MethodLock) (code : Nat) :
    (scanLocks v ls code).2 = code ∨ (scanLocks v ls code).2 = 3 := by
  induction ls generalizing code with
  | nil => simp [scanLocks]
  | cons x rest ih =>
    cases hx : x.scope with
    | exclusive => simp [scanLocks, hx]
    | shared =>
      simp only [scanLocks, hx]
      rcases ih 3 with h | h <;> rw [h] <;> simp

theorem scope_shared_of_ne_exclusive {l : MethodLock} (h : ¬l.scope = LockScope.exclusive) :
    l.scope = LockScope.shared := by
  cases hl : l.scope with
  | exclusive => exact absurd hl h
  | shared => rfl

theorem lockMethodScan_cases (locks : LockViews) :
    lockMethodScan locks = 0 ∨ lockMethodScan locks = 1 ∨ lockMethodScan locks = 3 := by
  unfold lockMethodScan
  rcases h1 : scanLocks 0 locks.resource 0 with ⟨f1, c1⟩
  have hf1 := scanLocks_fst_cases 0 locks.resource 0
  have hc1 := scanLocks_snd_cases 0 locks.resource 0
  rw [h1] at hf1 hc1
  simp only at hf1 hc1
  cases f1 with
  | some r =>
    dsimp only
    simp only [reduceCtorEq, Option.some.injEq, false_or] at hf1
    subst hf1
    simp
  | none =>
    dsimp only
    rcases h2 : scanLocks 0 locks.depthInfinity c1 with ⟨f2, c2⟩
    have hf2 := scanLocks_fst_cases 0 locks.depthInfinity c1
    have hc2 := scanLocks_snd_cases 0 locks.depthInfinity c1
    rw [h2] at hf2 hc2
    simp only at hf2 hc2
    cases f2 with
    | some r =>
      dsimp only
      simp only [reduceCtorEq, Option.some.injEq, false_or] at hf2
      subst hf2
      simp
    | none =>
      dsimp only
      rcases h3 : scanLocks 1 locks.depthZero c2 with ⟨f3, c3⟩
      have hf3 := scanLocks_fst_cases 1 locks.depthZero c2
      have hc3 := scanLocks_snd_cases 1 locks.depthZero c2
      rw [h3] at hf3 hc3
      simp only at hf3 hc3
      cases f3 with
      | some r =>
        dsimp only
        simp only [reduceCtorEq, Option.some.injEq, false_or] at hf3
        subst hf3
        simp
      | none =>
        dsimp only
        rcases hc1 with h | h <;> rcases hc2 with h2 | h2 <;> rcases hc3 with h3 | h3 <;> omega

/-! ## Lemmas about getLockPermission -/

theorem getLockPermission_eq (store : LockStore) (now : Nat) (req : Request) (p : List String)
    (user : String) :
    getLockPermission store now req p user =
      if (getLocks store now p).all.isEmpty then 2
      else if (getLocksByUser store now user p).all.any
          (fun l => (getRequestLockTockens req).contains l.token) then 2
      else if req.method = "LOCK" then lockMethodScan (getLocks store now p)
      else if !(getLocks store now p).depthInfinity.isEmpty ||
          !(getLocks store now p).resource.isEmpty then 0
      else if !(getLocks store now p).depthZero.isEmpty then 1
      else 0 := rfl

theorem tokens_any_eq_false {store : LockStore} {now : Nat} {user : String} {p : List String}
    {req : Request}
    (h : ∀ l ∈ (getLocksByUser store now user p).all, l.token ∉ getRequestLockTockens req) :
    ((getLocksByUser store now user p).all.any
      (fun l => (getRequestLockTockens req).contains l.token)) = false := by
  rw [List.any_eq_false]
  intro l hl
  simpa using h l hl

theorem isEmpty_false_of_ne_nil {α : Type} {l : List α} (h : l ≠ []) : l.isEmpty = false := by
  cases l with
  | nil => exact absurd rfl h
  | cons a as => rfl

theorem all_ne_nil_of_views {get : List String → List MethodLock} {p : List String}
    (h : (getLocksGeneral get p).resource ≠ [] ∨ (getLocksGeneral get p).depthZero ≠ [] ∨
      (getLocksGeneral get p).depthInfinity ≠ []) :
    (getLocksGeneral get p).all ≠ [] := by
  rcases h with h | h | h <;>
    [rcases List.exists_mem_of_ne_nil _ h with ⟨l, hl⟩;
     rcases List.exists_mem_of_ne_nil _ h with ⟨l, hl⟩;
     rcases List.exists_mem_of_ne_nil _ h with ⟨l, hl⟩]
  · exact List.ne_nil_of_mem (mem_getLocksGeneral_all.mpr (Or.inl hl))
  · exact List.ne_nil_of_mem (mem_getLocksGeneral_all.mpr (Or.inr (Or.inl hl)))
  · exact List.ne_nil_of_mem (mem_getLocksGeneral_all.mpr (Or.inr (Or.inr hl)))

theorem views_ne_nil_of_all {get : List String → List MethodLock} {p : List String}
    (h : (getLocksGeneral get p).all ≠ []) :
    (getLocksGeneral get p).resource ≠ [] ∨ (getLocksGeneral get p).depthZero ≠ [] ∨
      (getLocksGeneral get p).depthInfinity ≠ [] := by
  rcases List.exists_mem_of_ne_nil _ h with ⟨l, hl⟩
  rcases mem_getLocksGeneral_all.mp hl with hm | hm | hm
  · exact Or.inl (List.ne_nil_of_mem hm)
  · exact Or.inr (Or.inl (List.ne_nil_of_mem hm))
  · exact Or.inr (Or.inr (List.ne_nil_of_mem hm))

/-- Claim C1.  For a request whose method is not LOCK: with an empty
effective lock set getLockPermission returns 2; with a nonempty effective
lock set and no submitted user owned lock token it returns 0 when some
lock is tagged resource or depthInfinity, 1 when no such lock exists but
a depthZero lock on the immediate parent exists, and 0 otherwise. -/
theorem claim_C1 (store : LockStore) (now : Nat) (req : Request) (p : List String)
    (user : String) (hm : req.method ≠ "LOCK") :
    ((getLocks store now p).all = [] → getLockPermission store now req p user = 2) ∧
    ((∀ l ∈ (getLocksByUser store now user p).all, l.token ∉ getRequestLockTockens req) →
      (((getLocks store now p).resource ≠ [] ∨ (getLocks store now p).depthInfinity ≠ []) →
        getLockPermission store now req p user = 0) ∧
      ((getLocks store now p).resource = [] → (getLocks store now p).depthInfinity = [] →
        (getLocks store now p).depthZero ≠ [] →
        getLockPermission store now req p user = 1) ∧
      ((getLocks store now p).all ≠ [] → (getLocks store now p).resource = [] →
        (getLocks store now p).depthInfinity = [] → (getLocks store now p).depthZero = [] →
        getLockPermission store now req p user = 0)) := by
  constructor
  · intro h
    rw [getLockPermission_eq, h]
    rfl
  · intro hno
    have hany := tokens_any_eq_false hno
    refine ⟨?_, ?_, ?_⟩
    · intro hro
      have hall : (getLocks store now p).all ≠ [] := by
        unfold getLocks
        exact all_ne_nil_of_views (by unfold getLocks at hro; tauto)
      rw [getLockPermission_eq, isEmpty_false_of_ne_nil hall, hany, if_neg hm]
      have hcond : (!(getLocks store now p).depthInfinity.isEmpty ||
          !(getLocks store now p).resource.isEmpty) = true := by
        rcases hro with h | h <;> rw [isEmpty_false_of_ne_nil h] <;> simp
      rw [hcond]
      rfl
    · intro hr hi hz
      have hall : (getLocks store now p).all ≠ [] := by
        unfold getLocks
        exact all_ne_nil_of_views (by unfold getLocks at hz; tauto)
      rw [getLockPermission_eq, isEmpty_false_of_ne_nil hall, hany, if_neg hm]
      have hcond : (!(getLocks store now p).depthInfinity.isEmpty ||
          !(getLocks store now p).resource.isEmpty) = false := by
        rw [hr, hi]
        rfl
      rw [hcond, isEmpty_false_of_ne_nil hz]
      rfl
    · intro hall hr hi hz
      have := views_ne_nil_of_all (by unfold getLocks at hall; exact hall)
      unfold getLocks at hr hi hz
      tauto

/-- Witness for claim C1: a single active exclusive lock held by another
principal on the target resource itself denies a PUT without tokens. -/
theorem claim_C1_witness :
    getLockPermission
      (fun q => if q = ["a"] then
        [{ token := "urn:uuid:11111111-2222-3333-4444-555555555555"
           path := ["a"], principal := "alice", date := 0
           timeout := LockTimeout.inf, scope := LockScope.exclusive
           depth := LockDepth.zero, provisional := false }] else [])
      5 { method := "PUT", ifHeader := none, lockTokenHeader := none } ["a"] "bob" = 0 :=
  ((claim_C1 _ 5 _ ["a"] "bob" (by decide)).2 (by decide)).1 (Or.inl (by decide))

theorem lockMethodScan_of_exclusive_head {v : LockViews}
    (h : ∃ l ∈ v.resource ++ v.depthInfinity, l.scope = LockScope.exclusive) :
    lockMethodScan v = 0 := by
  unfold lockMethodScan
  by_cases hr : ∃ l ∈ v.resource, l.scope = LockScope.exclusive
  · rcases h1 : scanLocks 0 v.resource 0 with ⟨f1, c1⟩
    have hf := scanLocks_of_exclusive 0 0 hr
    rw [h1] at hf
    simp only at hf
    subst hf
    rfl
  · have hrs : ∀ l ∈ v.resource, l.scope = LockScope.shared := by
      intro l hl
      exact scope_shared_of_ne_exclusive (fun hex => hr ⟨l, hl, hex⟩)
    have hi : ∃ l ∈ v.depthInfinity, l.scope = LockScope.exclusive := by
      rcases h with ⟨l, hl, hex⟩
      rcases List.mem_append.mp hl with hq | hq
      · exact absurd ⟨l, hq, hex⟩ hr
      · exact ⟨l, hq, hex⟩
    rw [scanLocks_all_shared hrs]
    dsimp only
    rcases h2 : scanLocks 0 v.depthInfinity (if v.resource.isEmpty then 0 else 3) with ⟨f2, c2⟩
    have hf := scanLocks_of_exclusive 0 (if v.resource.isEmpty then 0 else 3) hi
    rw [h2] at hf
    simp only at hf
    subst hf
    rfl

theorem lockMethodScan_of_zero_exclusive {v : LockViews}
    (hall : ∀ l ∈ v.resource ++ v.depthInfinity, l.scope = LockScope.shared)
    (hz : ∃ l ∈ v.depthZero, l.scope = LockScope.exclusive) :
    lockMethodScan v = 1 := by
  unfold lockMethodScan
  have hrs : ∀ l ∈ v.resource, l.scope = LockScope.shared :=
    fun l hl => hall l (List.mem_append.mpr (Or.inl hl))
  have his : ∀ l ∈ v.depthInfinity, l.scope = LockScope.shared :=
    fun l hl => hall l (List.mem_append.mpr (Or.inr hl))
  rw [scanLocks_all_shared hrs]
  dsimp only
  rw [scanLocks_all_shared his]
  dsimp only
  rcases h3 : scanLocks 1 v.depthZero
      (if v.depthInfinity.isEmpty then if v.resource.isEmpty then 0 else 3 else 3) with ⟨f3, c3⟩
  have hf := scanLocks_of_exclusive 1
    (if v.depthInfinity.isEmpty then if v.resource.isEmpty then 0 else 3 else 3) hz
  rw [h3] at hf
  simp only at hf
  subst hf
  rfl

theorem lockMethodScan_of_all_shared {v : LockViews}
    (hr : ∀ l ∈ v.resource, l.scope = LockScope.shared)
    (hi : ∀ l ∈ v.depthInfinity, l.scope = LockScope.shared)
    (hz : ∀ l ∈ v.depthZero, l.scope = LockScope.shared)
    (hne : v.resource ≠ [] ∨ v.depthZero ≠ [] ∨ v.depthInfinity ≠ []) :
    lockMethodScan v = 3 := by
  unfold lockMethodScan
  rw [scanLocks_all_shared hr]
  dsimp only
  rw [scanLocks_all_shared hi]
  dsimp only
  rw [scanLocks_all_shared hz]
  dsimp only
  rcases hne with h | h | h <;> rw [isEmpty_false_of_ne_nil h] <;> simp

/-- Claim C2.  For a LOCK request with a nonempty effective lock set and
no submitted user owned lock token, getLockPermission returns 0 when an
exclusive lock is tagged resource or depthInfinity, 1 when no such
exclusive lock exists but an exclusive lock is tagged depthZero, and 3
when every effective lock is shared. -/
theorem claim_C2 (store : LockStore) (now : Nat) (req : Request) (p : List String)
    (user : String) (hm : req.method = "LOCK")
    (hne : (getLocks store now p).all ≠ [])
    (hno : ∀ l ∈ (getLocksByUser store now user p).all, l.token ∉ getRequestLockTockens req) :
    ((∃ l ∈ (getLocks store now p).resource ++ (getLocks store now p).depthInfinity,
        l.scope = LockScope.exclusive) → getLockPermission store now req p user = 0) ∧
    ((∀ l ∈ (getLocks store now p).resource ++ (getLocks store now p).depthInfinity,
        l.scope = LockScope.shared) →
      (∃ l ∈ (getLocks store now p).depthZero, l.scope = LockScope.exclusive) →
      getLockPermission store now req p user = 1) ∧
    ((∀ l ∈ (getLocks store now p).all, l.scope = LockScope.shared) →
      getLockPermission store now req p user = 3) := by
  have hperm : getLockPermission store now req p user = lockMethodScan (getLocks store now p) := by
    rw [getLockPermission_eq, isEmpty_false_of_ne_nil hne, tokens_any_eq_false hno, if_pos hm]
    simp
  refine ⟨?_, ?_, ?_⟩
  · intro h
    rw [hperm]
    exact lockMethodScan_of_exclusive_head h
  · intro hall hz
    rw [hperm]
    exact lockMethodScan_of_zero_exclusive hall hz
  · intro hsh
    rw [hperm]
    have hr : ∀ l ∈ (getLocks store now p).resource, l.scope = LockScope.shared :=
      fun l hl => hsh l (mem_getLocksGeneral_all.mpr (Or.inl hl))
    have hz : ∀ l ∈ (getLocks store now p).depthZero, l.scope = LockScope.shared :=
      fun l hl => hsh l (mem_getLocksGeneral_all.mpr (Or.inr (Or.inl hl)))
    have hi : ∀ l ∈ (getLocks store now p).depthInfinity, l.scope = LockScope.shared :=
      fun l hl => hsh l (mem_getLocksGeneral_all.mpr (Or.inr (Or.inr hl)))
    exact lockMethodScan_of_all_shared hr hi hz (views_ne_nil_of_all hne)

/-- Witness for claim C2: one active shared lock held by another
principal on the target resource lets a LOCK request get code 3. -/
theorem claim_C2_witness :
    getLockPermission
      (fun q => if q = ["f"] then
        [{ token := "urn:uuid:11111111-2222-3333-4444-555555555555"
           path := ["f"], principal := "alice", date := 0
           timeout := LockTimeout.inf, scope := LockScope.shared
           depth := LockDepth.zero, provisional := false }] else [])
      5 { method := "LOCK", ifHeader := none, lockTokenHeader := none } ["f"] "bob" = 3 :=
  (claim_C2 _ 5 _ ["f"] "bob" rfl (by decide) (by decide)).2.2 (by decide)

theorem mem_getLocksGeneral_all_source {get : List String → List MethodLock} {p : List String}
    {l : MethodLock} (h : l ∈ (getLocksGeneral get p).all) :
    ∃ q, (q = p ∨ q ∈ ancestorChain p) ∧ l ∈ get q := by
  rcases mem_getLocksGeneral_all.mp h with hm | hm | hm
  · rw [getLocksGeneral_eq] at hm
    exact ⟨p, Or.inl rfl, hm⟩
  · rw [getLocksGeneral_eq] at hm
    rcases mem_parentContrib_zeros.mp hm with ⟨a, rest, hchain, hmem, _⟩
    refine ⟨a, Or.inr ?_, hmem⟩
    rw [hchain]
    exact List.mem_cons_self a rest
  · rw [getLocksGeneral_eq] at hm
    rcases mem_parentContrib_inf.mp hm with ⟨a, ha, hmem, _⟩
    exact ⟨a, Or.inr ha, hmem⟩

/-- Claim C3, amended.  With a nonempty effective lock set,
getLockPermission returns 2 exactly when some effective lock of the
requesting principal has its token among the urn:uuid tokens extracted
from the If header; the Lock-Token header is not consulted.  Every lock
in the per-user views belongs to the requesting principal. -/
theorem claim_C3_amended (store : LockStore) (now : Nat) (req : Request) (p : List String)
    (user : String) (hne : (getLocks store now p).all ≠ []) :
    (getLockPermission store now req p user = 2 ↔
      ∃ l ∈ (getLocksByUser store now user p).all,
        l.token ∈ extractTokens (req.ifHeader.getD "")) ∧
    (∀ l ∈ (getLocksByUser store now user p).all, l.principal = user) := by
  constructor
  · constructor
    · intro h2
      by_contra hno
      push_neg at hno
      have hany : ((getLocksByUser store now user p).all.any
          (fun l => (getRequestLockTockens req).contains l.token)) = false :=
        tokens_any_eq_false hno
      rw [getLockPermission_eq, isEmpty_false_of_ne_nil hne, hany] at h2
      simp only [Bool.false_eq_true, if_false] at h2
      by_cases hm : req.method = "LOCK"
      · rw [if_pos hm] at h2
        rcases lockMethodScan_cases (getLocks store now p) with h | h | h <;> omega
      · rw [if_neg hm] at h2
        split at h2
        · omega
        · split at h2 <;> omega
    · rintro ⟨l, hl, ht⟩
      have hany : ((getLocksByUser store now user p).all.any
          (fun l => (getRequestLockTockens req).contains l.token)) = true := by
        rw [List.any_eq_true]
        refine ⟨l, hl, ?_⟩
        simpa using ht
      rw [getLockPermission_eq, isEmpty_false_of_ne_nil hne, hany]
      simp
  · intro l hl
    rcases mem_getLocksGeneral_all_source hl with ⟨q, _, hmem⟩
    exact (mem_activeResourceLocksByUser.mp hmem).2.1

/-- Witness for the amended claim C3: submitting the token of an owned
lock through the If header yields permission 2. -/
theorem claim_C3_amended_witness :
    getLockPermission
      (fun q => if q = ["f"] then
        [{ token := "urn:uuid:00000000-0000-0000-0000-000000000000"
           path := ["f"], principal := "alice", date := 0
           timeout := LockTimeout.inf, scope := LockScope.exclusive
           depth := LockDepth.zero, provisional := false }] else [])
      5 { method := "PUT"
          ifHeader := some "(<urn:uuid:00000000-0000-0000-0000-000000000000>)"
          lockTokenHeader := none } ["f"] "alice" = 2 :=
  (claim_C3_amended _ 5 _ ["f"] "alice" (by decide)).1.mpr (by decide)

/-- Counterexample to claim C3 as stated: a lock owned by the requesting
principal whose token is submitted only through the Lock-Token header
does not give permission 2; the permission stays 0. -/
theorem claim_C3_counterexample :
    let lk : MethodLock :=
      { token := "urn:uuid:00000000-0000-0000-0000-000000000000"
        path := ["f"], principal := "alice", date := 0
        timeout := LockTimeout.inf, scope := LockScope.exclusive
        depth := LockDepth.zero, provisional := false }
    let req : Request :=
      { method := "PUT", ifHeader := none
        lockTokenHeader := some "<urn:uuid:00000000-0000-0000-0000-000000000000>" }
    let store : LockStore := fun q => if q = ["f"] then [lk] else []
    lk.token ∈ specSubmittedTokens req ∧ lk.principal = "alice" ∧
      lk ∈ (getLocksByUser store 5 "alice" ["f"]).all ∧
      getLockPermission store 5 req ["f"] "alice" = 0 ∧
      getLockPermission store 5 req ["f"] "alice" ≠ 2 := by
  decide

/-! ## Store insertion congruences for C4 and C9 -/

theorem activeResourceLocks_insert_timedOut {store : LockStore} {now : Nat} {q : List String}
    {l : MethodLock} (hexp : l.timedOut now = true) :
    activeResourceLocks (storeInsert store q l) now = activeResourceLocks store now := by
  funext r
  unfold activeResourceLocks getCurrentResourceLocks storeInsert
  by_cases hr : r = q
  · rw [if_pos hr, removeAndDelete_cons, if_pos hexp]
  · rw [if_neg hr]

theorem activeResourceLocksByUser_insert_timedOut {store : LockStore} {now : Nat}
    {user : String} {q : List String} {l : MethodLock} (hexp : l.timedOut now = true) :
    activeResourceLocksByUser (storeInsert store q l) now user =
      activeResourceLocksByUser store now user := by
  funext r
  unfold activeResourceLocksByUser getCurrentResourceLocksByUser storeInsert
  by_cases hr : r = q
  · rw [if_pos hr, List.filter_cons]
    cases hp : decide (l.principal = user)
    · simp
    · rw [if_pos rfl, removeAndDelete_cons, if_pos hexp]
  · rw [if_neg hr]

theorem getLockPermission_congr {store1 store2 : LockStore} {now : Nat} {req : Request}
    {p : List String} {user : String}
    (h1 : activeResourceLocks store1 now = activeResourceLocks store2 now)
    (h2 : activeResourceLocksByUser store1 now user = activeResourceLocksByUser store2 now user) :
    getLockPermission store1 now req p user = getLockPermission store2 now req p user := by
  rw [getLockPermission_eq, getLockPermission_eq]
  unfold getLocks getLocksByUser
  rw [h1, h2]

/-- Claim C4.  An expired lock is excluded from getCurrentResourceLocks,
its deletion is attempted, it never appears in the effective lock views,
and adding an expired lock anywhere in the store never changes any
permission decision. -/
theorem claim_C4 (store : LockStore) (now : Nat) (req : Request) (p q : List String)
    (user : String) (l : MethodLock) (hexp : l.timedOut now = true) :
    l ∉ getCurrentResourceLocks store now p ∧
    (l ∈ store p → l ∈ purgedLockDeletes store now p) ∧
    l ∉ (getLocks store now p).all ∧
    getLockPermission (storeInsert store q l) now req p user =
      getLockPermission store now req p user := by
  refine ⟨?_, ?_, ?_, ?_⟩
  · intro h
    have := (mem_removeAndDelete_fst.mp h).2
    rw [hexp] at this
    cases this
  · intro h
    exact mem_removeAndDelete_snd.mpr ⟨h, hexp⟩
  · intro h
    rcases mem_getLocksGeneral_all_source h with ⟨a, _, hmem⟩
    have := (mem_activeResourceLocks.mp hmem).2.1
    rw [hexp] at this
    cases this
  · exact getLockPermission_congr (activeResourceLocks_insert_timedOut hexp)
      (activeResourceLocksByUser_insert_timedOut hexp)

/-- Witness for claim C4: a lock with timeout 1 ms created at time 0 is
expired at time 5 and adding it to the store leaves the decision as is. -/
theorem claim_C4_witness :
    getLockPermission
      (storeInsert (fun _ => [])
        ["f"]
        { token := "urn:uuid:00000000-0000-0000-0000-000000000000"
          path := ["f"], principal := "alice", date := 0
          timeout := LockTimeout.fin 1, scope := LockScope.exclusive
          depth := LockDepth.zero, provisional := false })
      5 { method := "PUT", ifHeader := none, lockTokenHeader := none } ["f"] "bob" =
    getLockPermission (fun _ => [])
      5 { method := "PUT", ifHeader := none, lockTokenHeader := none } ["f"] "bob" :=
  (claim_C4 (fun _ => []) 5 _ ["f"] ["f"] "bob" _ (by decide)).2.2.2

theorem activeResourceLocks_insert_provisional {store : LockStore} {now : Nat}
    {q : List String} {l : MethodLock} (hprov : l.provisional = true) :
    activeResourceLocks (storeInsert store q l) now = activeResourceLocks store now := by
  funext r
  unfold activeResourceLocks getCurrentResourceLocks storeInsert
  by_cases hr : r = q
  · rw [if_pos hr, removeAndDelete_cons]
    by_cases ht : l.timedOut now = true
    · rw [if_pos ht]
    · rw [if_neg ht, List.filter_cons]
      simp [hprov]
  · rw [if_neg hr]

theorem activeResourceLocksByUser_insert_provisional {store : LockStore} {now : Nat}
    {user : String} {q : List String} {l : MethodLock} (hprov : l.provisional = true) :
    activeResourceLocksByUser (storeInsert store q l) now user =
      activeResourceLocksByUser store now user := by
  funext r
  unfold activeResourceLocksByUser getCurrentResourceLocksByUser storeInsert
  by_cases hr : r = q
  · rw [if_pos hr, List.filter_cons]
    cases hp : decide (l.principal = user)
    · simp
    · rw [if_pos rfl, removeAndDelete_cons]
      by_cases ht : l.timedOut now = true
      · rw [if_pos ht]
      · rw [if_neg ht, List.filter_cons]
        simp [hprov]
  · rw [if_neg hr]

/-- Claim C9.  The effective lock views contain no provisional lock, in
the plain and per-user variants, and adding a provisional lock anywhere
in the store never changes any permission decision. -/
theorem claim_C9 (store : LockStore) (now : Nat) (req : Request) (p q : List String)
    (user : String) (l : MethodLock) (hprov : l.provisional = true) :
    (∀ k ∈ (getLocks store now p).all, k.provisional = false) ∧
    (∀ k ∈ (getLocksByUser store now user p).all, k.provisional = false) ∧
    getLockPermission (storeInsert store q l) now req p user =
      getLockPermission store now req p user := by
  refine ⟨?_, ?_, ?_⟩
  · intro k hk
    rcases mem_getLocksGeneral_all_source hk with ⟨a, _, hmem⟩
    exact (mem_activeResourceLocks.mp hmem).2.2
  · intro k hk
    rcases mem_getLocksGeneral_all_source hk with ⟨a, _, hmem⟩
    exact (mem_activeResourceLocksByUser.mp hmem).2.2.2
  · exact getLockPermission_congr (activeResourceLocks_insert_provisional hprov)
      (activeResourceLocksByUser_insert_provisional hprov)

/-- Witness for claim C9: adding a provisional lock leaves the decision
for another request unchanged. -/
theorem claim_C9_witness :
    getLockPermission
      (storeInsert (fun _ => [])
        ["f"]
        { token := "urn:uuid:00000000-0000-0000-0000-000000000000"
          path := ["f"], principal := "alice", date := 0
          timeout := LockTimeout.inf, scope := LockScope.exclusive
          depth := LockDepth.zero, provisional := true })
      5 { method := "PUT", ifHeader := none, lockTokenHeader := none } ["f"] "bob" =
    getLockPermission (fun _ => [])
      5 { method := "PUT", ifHeader := none, lockTokenHeader := none } ["f"] "bob" :=
  (claim_C9 (fun _ => []) 5 _ ["f"] ["f"] "bob" _ (by decide)).2.2

theorem ancestorChain_ne_self {p a : List String} (ha : a ∈ ancestorChain p) : a ≠ p := by
  intro heq
  have := length_lt_of_mem_ancestorChain ha
  rw [heq] at this
  omega

/-- Claim C5.  For a store whose locks record their owning resource, the
view computed by getLocks satisfies: all is the union of the resource,
depthZero and depthInfinity views; the three tagged views are pairwise
disjoint; depthInfinity holds exactly the active depth infinity locks of
the proper ancestors; depthZero holds exactly the active depth 0 locks
of the immediate parent. -/
theorem claim_C5 (store : LockStore) (now : Nat) (p : List String)
    (hwfp : ∀ l ∈ store p, l.path = p)
    (hwfa : ∀ a ∈ ancestorChain p, ∀ l ∈ store a, l.path = a) :
    (∀ l, l ∈ (getLocks store now p).all ↔
      l ∈ (getLocks store now p).resource ∨ l ∈ (getLocks store now p).depthZero ∨
        l ∈ (getLocks store now p).depthInfinity) ∧
    (∀ l ∈ (getLocks store now p).resource,
      l ∉ (getLocks store now p).depthZero ∧ l ∉ (getLocks store now p).depthInfinity) ∧
    (∀ l ∈ (getLocks store now p).depthZero, l ∉ (getLocks store now p).depthInfinity) ∧
    (∀ l, l ∈ (getLocks store now p).depthInfinity ↔
      ∃ a ∈ ancestorChain p, l ∈ activeResourceLocks store now a ∧
        l.depth = LockDepth.infinity) ∧
    (∀ l, l ∈ (getLocks store now p).depthZero ↔
      ∃ q, parentPath p = some q ∧ l ∈ activeResourceLocks store now q ∧
        l.depth = LockDepth.zero) := by
  have hinf : ∀ l : MethodLock, l ∈ (getLocks store now p).depthInfinity ↔
      ∃ a ∈ ancestorChain p, l ∈ activeResourceLocks store now a ∧
        l.depth = LockDepth.infinity := by
    intro l
    unfold getLocks
    rw [getLocksGeneral_eq]
    exact mem_parentContrib_inf
  have hzero : ∀ l : MethodLock, l ∈ (getLocks store now p).depthZero ↔
      ∃ q, parentPath p = some q ∧ l ∈ activeResourceLocks store now q ∧
        l.depth = LockDepth.zero := by
    intro l
    unfold getLocks
    rw [getLocksGeneral_eq]
    constructor
    · intro h
      rcases mem_parentContrib_zeros.mp h with ⟨a, rest, hchain, hmem, hd⟩
      cases hpp : parentPath p with
      | none =>
        rw [ancestorChain_of_parent_none hpp] at hchain
        cases hchain
      | some w =>
        rw [ancestorChain_of_parent_some hpp] at hchain
        injection hchain with h1 h2
        subst h1
        exact ⟨w, rfl, hmem, hd⟩
    · rintro ⟨w, hpp, hmem, hd⟩
      exact mem_parentContrib_zeros.mpr
        ⟨w, ancestorChain w, ancestorChain_of_parent_some hpp, hmem, hd⟩
  have hres : ∀ l ∈ (getLocks store now p).resource, l ∈ store p ∧ l.path = p := by
    intro l hl
    unfold getLocks at hl
    rw [getLocksGeneral_eq] at hl
    have hsl := mem_activeResourceLocks.mp hl
    exact ⟨hsl.1, hwfp l hsl.1⟩
  refine ⟨fun l => mem_getLocksGeneral_all, ?_, ?_, hinf, hzero⟩
  · intro l hl
    obtain ⟨hsl, hpath⟩ := hres l hl
    constructor
    · intro hz
      rcases (hzero l).mp hz with ⟨w, hpp, hmemw, _⟩
      have hwchain : w ∈ ancestorChain p := by
        rw [ancestorChain_of_parent_some hpp]
        exact List.mem_cons_self w (ancestorChain w)
      have hpathw := hwfa w hwchain l (mem_activeResourceLocks.mp hmemw).1
      rw [hpathw] at hpath
      exact ancestorChain_ne_self hwchain hpath
    · intro hi
      rcases (hinf l).mp hi with ⟨a, ha, hmema, _⟩
      have hpatha := hwfa a ha l (mem_activeResourceLocks.mp hmema).1
      rw [hpatha] at hpath
      exact ancestorChain_ne_self ha hpath
  · intro l hz hi
    rcases (hzero l).mp hz with ⟨w, _, _, hdz⟩
    rcases (hinf l).mp hi with ⟨a, _, _, hdi⟩
    rw [hdz] at hdi
    exact LockDepth.noConfusion hdi

/-- A sample lock for the claim C5 witness: depth infinity on the
immediate parent. -/
def c5lock : MethodLock :=
  { token := "urn:uuid:11111111-2222-3333-4444-555555555555"
    path := ["a"], principal := "alice", date := 0
    timeout := LockTimeout.inf, scope := LockScope.exclusive
    depth := LockDepth.infinity, provisional := false }

/-- A sample store for the claim C5 witness. -/
def c5store : LockStore := fun q => if q = ["a"] then [c5lock] else []

/-- Witness for claim C5: the depth infinity lock of the parent is
tagged depthInfinity in the views of the child resource. -/
theorem claim_C5_witness :
    c5lock ∈ (getLocks c5store 5 ["a", "b"]).depthInfinity :=
  ((claim_C5 c5store 5 ["a", "b"] (by decide) (by decide)).2.2.2.1 c5lock).mpr (by decide)

/-! ## Claims about Properties.set and Lock.save -/

/-- Claim C7.  Setting any live property throws
PropertyIsProtectedError, performs no read or write of the dead
property store, and leaves the stored properties unchanged. -/
theorem claim_C7 (st : Option PropsFile) (name : String) (value : Option String)
    (h : name ∈ liveProperties) :
    propertiesSet st name value = (Except.error PropError.propertyIsProtected, st, []) := by
  unfold propertiesSet
  rw [if_pos h]

/-- Witness for claim C7: setting getetag fails without touching the
store. -/
theorem claim_C7_witness :
    propertiesSet none "getetag" (some "x") =
      (Except.error PropError.propertyIsProtected, none, []) :=
  claim_C7 none "getetag" (some "x") (by decide)

theorem assocGet_assocSet_same {α : Type} (m : List (String × α)) (k : String) (v : α) :
    assocGet (assocSet m k v) k = some v := by
  induction m with
  | nil => simp [assocSet, assocGet]
  | cons e rest ih =>
    rcases e with ⟨k2, v2⟩
    by_cases hk : k2 = k
    · rw [show assocSet ((k2, v2) :: rest) k v = (k, v) :: rest from by
        simp [assocSet, hk]]
      simp [assocGet]
    · rw [show assocSet ((k2, v2) :: rest) k v = (k2, v2) :: assocSet rest k v from by
        simp [assocSet, hk]]
      simpa [assocGet, hk] using ih

theorem assocGet_assocSet_other {α : Type} (m : List (String × α)) (k t : String) (v : α)
    (ht : t ≠ k) :
    assocGet (assocSet m k v) t = assocGet m t := by
  induction m with
  | nil =>
    simp [assocSet, assocGet, Ne.symm ht]
  | cons e rest ih =>
    rcases e with ⟨k2, v2⟩
    by_cases hk : k2 = k
    · rw [show assocSet ((k2, v2) :: rest) k v = (k, v) :: rest from by
        simp [assocSet, hk]]
      subst hk
      simp [assocGet, Ne.symm ht]
    · rw [show assocSet ((k2, v2) :: rest) k v = (k2, v2) :: assocSet rest k v from by
        simp [assocSet, hk]]
      by_cases h2 : k2 = t
      · simp [assocGet, h2]
      · simp [assocGet, h2, ih]

/-- Claim C8.  Lock.save stores, under the lock token, a record holding
exactly the principal username, creation timestamp, timeout, exclusive
flag, depth and provisional flag, and leaves the dead properties and
every other lock in the metadata document unchanged. -/
theorem claim_C8 (lk : FsLock) (meta : MetaFile) :
    (lockSave lk meta).dead = meta.dead ∧
    assocGet ((lockSave lk meta).locks.getD []) lk.token =
      some { username := lk.user.username, date := lk.date, timeout := lk.timeout
             exclusive := lk.exclusive, depth := lk.depth, provisional := lk.provisional } ∧
    (∀ t, t ≠ lk.token →
      assocGet ((lockSave lk meta).locks.getD []) t = assocGet (meta.locks.getD []) t) := by
  refine ⟨rfl, ?_, ?_⟩
  · exact assocGet_assocSet_same (meta.locks.getD []) lk.token _
  · intro t ht
    exact assocGet_assocSet_other (meta.locks.getD []) lk.token t _ ht

/-- A sample lock and metadata document for the claim C8 witness. -/
def c8lock : FsLock :=
  { token := "urn:uuid:22222222-3333-4444-5555-666666666666"
    user := { username := "alice" }, date := 100, timeout := 3600000
    exclusive := true, depth := LockDepth.zero, provisional := false }

def c8meta : MetaFile :=
  { locks := some [("other",
      { username := "bob", date := 7, timeout := 5, exclusive := false
        depth := LockDepth.infinity, provisional := true })]
    dead := [("author", "carol")] }

/-- Witness for claim C8: saving a lock leaves a lock stored under a
different token unchanged. -/
theorem claim_C8_witness :
    assocGet ((lockSave c8lock c8meta).locks.getD []) "other" =
      assocGet (c8meta.locks.getD []) "other" :=
  (claim_C8 c8lock c8meta).2.2 "other" (by decide)

/-- Claim C10.  With no Accept-Encoding header the negotiation uses the
default header identity, *;q=0.5 and picks identity, and sending the
body with encoding identity sends the raw UTF-8 bytes with
Content-Length equal to the UTF-8 byte length and no Content-Encoding
header. -/
theorem claim_C10 (byteLen : String → String → Nat) (compression : Bool)
    (cacheControlHeader : Option String) (content : String) :
    getRequestedEncoding none = getRequestedEncoding (some "identity, *;q=0.5") ∧
    getRequestedEncoding none = Except.ok "identity" ∧
    sendBodyContent byteLen compression cacheControlHeader content "identity" =
      { varySet := true, contentEncoding := none
        contentLength := content.utf8ByteSize, body := BodyOut.raw content } := by
  refine ⟨rfl, rfl, ?_⟩
  unfold sendBodyContent
  simp

/-! ## Lemmas for the Accept-Encoding negotiation -/

theorem insertDescQ_perm (x : String × QVal) (l : List (String × QVal)) :
    (insertDescQ x l).Perm (x :: l) := by
  induction l with
  | nil => exact List.Perm.refl _
  | cons y ys ih =>
    unfold insertDescQ
    by_cases h : qGT y.2 x.2 = true
    · rw [if_pos h]
      exact (List.Perm.cons y ih).trans (List.Perm.swap x y ys)
    · rw [if_neg h]

theorem sortDescQ_perm (l : List (String × QVal)) : (sortDescQ l).Perm l := by
  induction l with
  | nil => exact List.Perm.refl _
  | cons x xs ih =>
    exact (insertDescQ_perm x (sortDescQ xs)).trans (List.Perm.cons x ih)

theorem pickEncoding_eq_none_iff {l : List (String × QVal)} :
    pickEncoding l = none ↔ ∀ e ∈ l, e.1 ∉ acceptableEncodings := by
  induction l with
  | nil => simp [pickEncoding]
  | cons e es ih =>
    rcases e with ⟨n, q⟩
    rw [show pickEncoding ((n, q) :: es) =
      if n ∈ acceptableEncodings then some (n, es) else pickEncoding es from rfl]
    by_cases hn : n ∈ acceptableEncodings
    · rw [if_pos hn]
      constructor
      · intro hsome; cases hsome
      · intro hall
        exact absurd hn (hall (n, q) (List.mem_cons_self _ _))
    · rw [if_neg hn, ih]
      constructor
      · intro hall e he
        rcases List.mem_cons.mp he with he | he
        · subst he; exact hn
        · exact hall e he
      · intro hall e he
        exact hall e (List.mem_cons_of_mem _ he)

theorem pickEncoding_eq_some {l : List (String × QVal)} {name : String}
    {rest : List (String × QVal)} (h : pickEncoding l = some (name, rest)) :
    name ∈ acceptableEncodings ∧
    ∃ q pre, l = pre ++ (name, q) :: rest ∧ ∀ e ∈ pre, e.1 ∉ acceptableEncodings := by
  induction l with
  | nil => exact Option.noConfusion h
  | cons e es ih =>
    rcases e with ⟨n, q⟩
    rw [show pickEncoding ((n, q) :: es) =
      if n ∈ acceptableEncodings then some (n, es) else pickEncoding es from rfl] at h
    by_cases hn : n ∈ acceptableEncodings
    · rw [if_pos hn] at h
      simp only [Option.some.injEq, Prod.mk.injEq] at h
      obtain ⟨h1, h2⟩ := h
      subst h1
      subst h2
      exact ⟨hn, q, [], rfl, by simp⟩
    · rw [if_neg hn] at h
      obtain ⟨hacc, q2, pre, heq, hpre⟩ := ih h
      refine ⟨hacc, q2, (n, q) :: pre, by rw [heq]; rfl, ?_⟩
      intro e he
      rcases List.mem_cons.mp he with he | he
      · subst he; exact hn
      · exact hpre e he

theorem find?_congr_on {α : Type} {l : List α} {p q : α → Bool}
    (h : ∀ a ∈ l, p a = q a) : l.find? p = l.find? q := by
  induction l with
  | nil => rfl
  | cons a as ih =>
    have ha := h a (List.mem_cons_self a as)
    have hrest : ∀ b ∈ as, p b = q b := fun b hb => h b (List.mem_cons_of_mem a hb)
    cases hpa : p a
    · rw [List.find?_cons_of_neg _ (by simp [hpa]),
        List.find?_cons_of_neg _ (by simp [← ha, hpa])]
      exact ih hrest
    · rw [List.find?_cons_of_pos _ (by simp [hpa]),
        List.find?_cons_of_pos _ (by simp [← ha, hpa])]

theorem mem_acceptable_iff (n : String) :
    n ∈ acceptableEncodings ↔ n ∈ ["gzip", "x-gzip", "deflate", "br", "identity", "*"] := by
  simp only [acceptableEncodings, List.mem_cons, List.not_mem_nil, or_false]
  tauto

theorem supported_mem_acceptable {c : String} (h : c ∈ supportedEncodings) :
    c ∈ acceptableEncodings := by
  simp only [supportedEncodings, List.mem_cons, List.not_mem_nil, or_false] at h
  simp only [acceptableEncodings, List.mem_cons, List.not_mem_nil, or_false]
  tauto

theorem supported_ne_star {c : String} (h : c ∈ supportedEncodings) : c ≠ "*" := by
  simp only [supportedEncodings, List.mem_cons, List.not_mem_nil, or_false] at h
  rcases h with h | h | h | h <;> subst h <;> decide

/-- Counterexample to claim C6 as stated: a present but empty
Accept-Encoding header lists no supported encoding and no star, yet
getRequestedEncoding does not throw: the JavaScript falsy default turns
the empty header value into identity, *;q=0.5 and identity is
returned. -/
theorem claim_C6_counterexample :
    getRequestedEncoding (some "") = Except.ok "identity" ∧
    getRequestedEncoding (some "") ≠ Except.error EncError.encodingNotSupported ∧
    (∀ n ∈ entryNames (parseAcceptEncoding ""),
      n ∉ ["gzip", "x-gzip", "deflate", "br", "identity", "*"]) := by
  refine ⟨rfl, ?_, by decide⟩
  intro hx
  rw [show getRequestedEncoding (some "") = Except.ok "identity" from rfl] at hx
  cases hx

/-- Claim C6, amended.  getRequestedEncoding always answers with one of
gzip, x-gzip, deflate, br, identity; it throws
EncodingNotSupportedError exactly when the header value is nonempty and
no listed encoding is in the supported set and the star is not listed,
an empty header value being treated like a missing header and
negotiating to identity; and when the selection loop picks a star entry
the result is the first supported encoding not explicitly listed in the
header, falling back to gzip. -/
theorem claim_C6_amended (h : String) :
    (∀ s, getRequestedEncoding (some h) = Except.ok s →
      s ∈ ["gzip", "x-gzip", "deflate", "br", "identity"]) ∧
    (getRequestedEncoding (some h) = Except.error EncError.encodingNotSupported ↔
      h ≠ "" ∧ ∀ n ∈ entryNames (parseAcceptEncoding h),
        n ∉ ["gzip", "x-gzip", "deflate", "br", "identity", "*"]) ∧
    (∀ rest, pickEncoding (sortDescQ (parseAcceptEncoding h)) = some ("*", rest) →
      getRequestedEncoding (some h) =
        Except.ok (firstUnlistedSupported (entryNames (parseAcceptEncoding h)))) := by
  have hred : ∀ g : String, g ≠ "" → getRequestedEncoding (some g) =
      match pickEncoding (sortDescQ (parseAcceptEncoding g)) with
      | none => Except.error EncError.encodingNotSupported
      | some (enc, rest) =>
        if enc = "*" then
          Except.ok ((supportedEncodings.find?
            (fun c => (rest.find? (fun e => decide (e.1 = c))).isNone)).getD "gzip")
        else Except.ok enc := by
    intro g hg
    unfold getRequestedEncoding
    dsimp only
    rw [if_neg hg]
  refine ⟨?_, ?_, ?_⟩
  · intro s
    by_cases h0 : h = ""
    · subst h0
      intro hs
      rw [show getRequestedEncoding (some "") = Except.ok "identity" from rfl] at hs
      injection hs with hs
      subst hs
      decide
    · rcases hpick : pickEncoding (sortDescQ (parseAcceptEncoding h)) with _ | ⟨enc, rest⟩
      · intro hs
        rw [hred h h0, hpick] at hs
        cases hs
      · intro hs
        rw [hred h h0, hpick] at hs
        dsimp only at hs
        by_cases he : enc = "*"
        · rw [if_pos he] at hs
          injection hs with hs
          subst hs
          rcases hf : supportedEncodings.find?
              (fun c => (rest.find? (fun e => decide (e.1 = c))).isNone) with _ | c
          · rw [hf]
            decide
          · rw [hf]
            have hc := List.mem_of_find?_eq_some hf
            simp only [supportedEncodings, List.mem_cons, List.not_mem_nil, or_false] at hc
            simp only [Option.getD_some, List.mem_cons, List.not_mem_nil, or_false]
            tauto
        · rw [if_neg he] at hs
          injection hs with hs
          subst hs
          have hacc := (pickEncoding_eq_some hpick).1
          simp only [acceptableEncodings, List.mem_cons, List.not_mem_nil, or_false] at hacc
          simp only [List.mem_cons, List.not_mem_nil, or_false]
          tauto
  · by_cases h0 : h = ""
    · subst h0
      constructor
      · intro herr
        rw [show getRequestedEncoding (some "") = Except.ok "identity" from rfl] at herr
        cases herr
      · rintro ⟨hne, _⟩
        exact absurd rfl hne
    · rcases hpick : pickEncoding (sortDescQ (parseAcceptEncoding h)) with _ | ⟨enc, rest⟩
      · rw [hred h h0, hpick]
        constructor
        · intro _
          refine ⟨h0, ?_⟩
          intro n hn
          rcases List.mem_map.mp hn with ⟨e, he, hne⟩
          have hes : e ∈ sortDescQ (parseAcceptEncoding h) :=
            ((sortDescQ_perm _).mem_iff).mpr he
          have hno := pickEncoding_eq_none_iff.mp hpick e hes
          rw [← hne]
          intro hmem
          exact hno ((mem_acceptable_iff e.1).mpr hmem)
        · intro _
          rfl
      · rw [hred h h0, hpick]
        dsimp only
        constructor
        · intro habs
          by_cases he : enc = "*"
          · rw [if_pos he] at habs; cases habs
          · rw [if_neg he] at habs; cases habs
        · rintro ⟨_, hnone⟩
          exfalso
          have hacc := (pickEncoding_eq_some hpick).1
          obtain ⟨q2, pre, heq, _⟩ := (pickEncoding_eq_some hpick).2
          have hes : (enc, q2) ∈ sortDescQ (parseAcceptEncoding h) := by
            rw [heq]
            exact List.mem_append.mpr (Or.inr (List.mem_cons_self _ _))
          have hee : (enc, q2) ∈ parseAcceptEncoding h := (sortDescQ_perm _).mem_iff.mp hes
          have hnn : enc ∈ entryNames (parseAcceptEncoding h) :=
            List.mem_map.mpr ⟨(enc, q2), hee, rfl⟩
          exact hnone enc hnn ((mem_acceptable_iff enc).mp hacc)
  · intro rest hpick
    have h0 : h ≠ "" := by
      intro heq0
      subst heq0
      rw [show pickEncoding (sortDescQ (parseAcceptEncoding "")) =
        (none : Option (String × List (String × QVal))) from rfl] at hpick
      cases hpick
    obtain ⟨hstar, q2, pre, heq, hpre⟩ := pickEncoding_eq_some hpick
    have hfind : supportedEncodings.find?
        (fun c => (rest.find? (fun e => decide (e.1 = c))).isNone) =
        supportedEncodings.find?
        (fun c => !(entryNames (parseAcceptEncoding h)).contains c) := by
      apply find?_congr_on
      intro c hc
      by_cases hcn : c ∈ entryNames (parseAcceptEncoding h)
      · have hrhs : (!(entryNames (parseAcceptEncoding h)).contains c) = false := by
          simp [hcn]
        rw [hrhs]
        rcases List.mem_map.mp hcn with ⟨e, he, hec⟩
        have hes : e ∈ sortDescQ (parseAcceptEncoding h) := (sortDescQ_perm _).mem_iff.mpr he
        rw [heq] at hes
        rcases List.mem_append.mp hes with hp | hp
        · exfalso
          apply hpre e hp
          rw [hec]
          exact supported_mem_acceptable hc
        · rcases List.mem_cons.mp hp with hp | hp
          · exfalso
            apply supported_ne_star hc
            rw [← hec, hp]
          · rcases hfound : rest.find? (fun e => decide (e.1 = c)) with _ | found
            · rw [List.find?_eq_none] at hfound
              exact absurd (by simp [hec] : (fun e => decide (e.1 = c)) e = true)
                (by simpa using hfound e hp)
            · rw [hfound]
              rfl
      · have hrhs : (!(entryNames (parseAcceptEncoding h)).contains c) = true := by
          simp [hcn]
        rw [hrhs]
        have hnone : rest.find? (fun e => decide (e.1 = c)) = none := by
          rw [List.find?_eq_none]
          intro e he
          simp only [decide_eq_true_eq]
          intro hec
          apply hcn
          have hes : e ∈ sortDescQ (parseAcceptEncoding h) := by
            rw [heq]
            exact List.mem_append.mpr (Or.inr (List.mem_cons_of_mem _ he))
          exact List.mem_map.mpr ⟨e, (sortDescQ_perm _).mem_iff.mp hes, hec⟩
        rw [hnone]
        rfl
    rw [hred h h0, hpick]
    dsimp only
    rw [if_pos rfl, hfind]
    rfl

/-- Witness for the amended claim C6: a header listing only the star
picks the first supported encoding not listed, which is gzip. -/
theorem claim_C6_amended_witness :
    getRequestedEncoding (some "*") =
      Except.ok (firstUnlistedSupported (entryNames (parseAcceptEncoding "*"))) :=
  (claim_C6_amended "*").2.2 [] (by decide)
